import Mathlib

/-!
# Verification of the identity-based threshold encryption core

The repository under `src/` is a demo driver (basic_demo, key_management,
threshold_demo, file_demo) calling into the `crypto` crate of the Seal project:
`generate_key_pair`, `derive_master_key`, `into_key_pair`, `extract`,
`verify_user_secret_key`, `create_full_id`, `seal_encrypt` and `seal_decrypt`.
The crate itself is not part of the repository, so the cryptographic core is
modelled here from the specification, in the exponent: a pairing-group element
`g ^ x` is represented by its discrete logarithm `x` in the prime field
`ZMod fieldOrder`.  A Boneh-Franklin style threshold encapsulation is modelled
with a Shamir sharing polynomial over that field, and the symmetric layer is an
ideal stream cipher with an ideal (injective) authentication tag, matching the
flat guarantees the specification states for the authenticated modes.
All definitions are executable.
-/

namespace SealToolkit

/-- Modelled from the spec: the order of the scalar field of the pairing group
used by the missing `crypto` crate.  A small prime keeps every definition
executable while preserving the field structure the threshold scheme needs. -/
abbrev fieldOrder : ℕ := 65537

instance : Fact (Nat.Prime fieldOrder) := ⟨by norm_num⟩

/-- Scalars of the pairing group, and (in the exponent model) the group
elements themselves. -/
abbrev Zq := ZMod fieldOrder

/-- A byte, as used for identities, payloads and ciphertexts. -/
abbrev Byte := ZMod 256

/-- Modelled from the spec: a 32-byte object identifier (`ObjectID` of the
missing `crypto` crate), represented by its numeric value. -/
abbrev ObjectID := ℕ

/-- Little-endian fixed-width byte encoding of a natural number, used for the
32-byte object identifier and for the 32-byte symmetric key. -/
def natToBytes : ℕ → ℕ → List Byte
  | 0, _ => []
  | k + 1, m => ((m % 256 : ℕ) : Byte) :: natToBytes k (m / 256)

/-- Little-endian decoding of a byte string to a natural number. -/
def bytesToNat (l : List Byte) : ℕ :=
  l.foldr (fun b acc => b.val + 256 * acc) 0

theorem length_natToBytes : ∀ (k m : ℕ), (natToBytes k m).length = k
  | 0, _ => rfl
  | k + 1, m => by simp [natToBytes, length_natToBytes k]

theorem bytesToNat_natToBytes : ∀ (k m : ℕ), m < 256 ^ k →
    bytesToNat (natToBytes k m) = m
  | 0, m, h => by
      interval_cases m
      rfl
  | k + 1, m, h => by
      have h256 : (0 : ℕ) < 256 := by norm_num
      have hdiv : m / 256 < 256 ^ k := by
        refine Nat.div_lt_of_lt_mul ?_
        calc m < 256 ^ (k + 1) := h
        _ = 256 * 256 ^ k := by ring
      have hval : ((m % 256 : ℕ) : Byte).val = m % 256 :=
        ZMod.val_cast_of_lt (Nat.mod_lt _ h256)
      simp only [natToBytes, bytesToNat, List.foldr_cons]
      rw [show (natToBytes k (m / 256)).foldr (fun b acc => b.val + 256 * acc) 0
        = bytesToNat (natToBytes k (m / 256)) from rfl,
        bytesToNat_natToBytes k _ hdiv, hval, Nat.mod_add_div]

theorem natToBytes_inj {k m₁ m₂ : ℕ} (h₁ : m₁ < 256 ^ k) (h₂ : m₂ < 256 ^ k)
    (h : natToBytes k m₁ = natToBytes k m₂) : m₁ = m₂ := by
  rw [← bytesToNat_natToBytes k m₁ h₁, ← bytesToNat_natToBytes k m₂ h₂, h]

/-- Modelled from the spec: `create_full_id` of the missing `crypto` crate (the
Identity Binder of section 4.1).  It deterministically combines the fixed-size
package identifier with the arbitrary identity bytes into the canonical full
identity; the fixed-width prefix makes the combination collision-free. -/
def create_full_id (package_id : ObjectID) (id : List Byte) : List Byte :=
  natToBytes 32 package_id ++ id

/-- Modelled from the spec: hash of a full identity to the pairing group,
represented in the exponent by a scalar of the field. -/
def hashToScalar (full_id : List Byte) : Zq :=
  ((bytesToNat full_id : ℕ) : Zq)

/-- Modelled from the spec: `extract` of the missing `crypto` crate (the
Extractor of section 4.3).  The user secret-key share for a full identity is
the hash point raised to the master key; in the exponent model this is the
product of the master scalar with the identity hash. -/
def extract (master_key : Zq) (full_id : List Byte) : Zq :=
  master_key * hashToScalar full_id

/-- Modelled from the spec: `into_key_pair` of the missing `crypto` crate
recomputes the public key share of a master key share.  In the exponent model
the public share of `msk` stands for `g2 ^ msk` and is represented by `msk`. -/
def into_key_pair (master_key : Zq) : Zq × Zq :=
  (master_key, master_key)

/-- Modelled from the spec: `derive_master_key` of the missing `crypto` crate,
a pure deterministic derivation of a master key share from a seed and an
index.  Seed and index spaces are modelled at one byte each so that the pair
embeds injectively into the scalar field, matching the stated guarantee that
distinct indices under one seed yield distinct keys. -/
def derive_master_key (seed : Fin 256) (index : Fin 256) : Zq :=
  ((seed.val * 256 + index.val : ℕ) : Zq)

/-- The two kinds of configuration violation `seal_encrypt` reports. -/
inductive ConfigViolation where
  | InvalidServerList
  | InvalidThreshold
deriving DecidableEq

/-- Modelled from the spec: the error taxonomy of section 7 for the operations
of the missing `crypto` crate. -/
inductive SealError where
  | ConfigError (kind : ConfigViolation)
  | IdentityError
  | VerificationError
  | InsufficientShares
  | UnknownServer
  | AuthenticationFailure
  | SerializationError
deriving DecidableEq

/-- Result type of the fallible operations, mirroring the Rust `Result`. -/
inductive SealResult (α : Type) where
  | ok (value : α)
  | error (e : SealError)
deriving DecidableEq

/-- Modelled from the spec: `verify_user_secret_key` of the missing `crypto`
crate (the Verifier of section 4.4).  The pairing equation
`e(usk, g2) = e(H(fid), pk)` holds in the exponent model exactly when
`usk = pk · H(fid)`. -/
def verify_user_secret_key (user_secret_key : Zq) (full_id : List Byte)
    (public_key : Zq) : SealResult Unit :=
  if user_secret_key = public_key * hashToScalar full_id then .ok ()
  else .error .VerificationError

/-- Hybrid payload modes accepted by `seal_encrypt` (`EncryptionInput` of the
missing `crypto` crate): authenticated AES-GCM, authenticated HMAC-CTR stream,
and the raw-key mode `Plain` carrying no payload. -/
inductive EncryptionInput where
  | Aes256Gcm (data : List Byte) (aad : Option (List Byte))
  | Hmac256Ctr (data : List Byte) (aad : Option (List Byte))
  | Plain
deriving DecidableEq

/-- Symmetric-layer part of an encrypted object: mode tag, encrypted blob,
associated data, nonce and authentication tag. -/
inductive Ciphertext where
  | Aes256Gcm (blob : List Byte) (aad : Option (List Byte)) (nonce : ℕ) (tag : ℕ)
  | Hmac256Ctr (blob : List Byte) (aad : Option (List Byte)) (nonce : ℕ) (mac : ℕ)
  | Plain
deriving DecidableEq

/-- Modelled from the spec: the `EncryptedObject` of the missing `crypto`
crate (section 3): package id, identity bytes, ordered server list, threshold,
the ephemeral encapsulation element (`g ^ r`, represented by `r`), one
encapsulated key share per listed server, and the symmetric-layer output. -/
structure EncryptedObject where
  package_id : ObjectID
  id : List Byte
  services : List ObjectID
  threshold : ℕ
  encap : Zq
  shares : List Zq
  ciphertext : Ciphertext
deriving DecidableEq

/-- Keystream byte `i` of the ideal stream cipher under a content key, nonce
and a domain-separation tag distinguishing the two authenticated modes. -/
def pad (key : Zq) (nonce dst i : ℕ) : Byte :=
  ((key.val + nonce + dst + i : ℕ) : Byte)

/-- Ideal stream encryption: add the keystream byte-by-byte. -/
def xorStream (key : Zq) (nonce dst : ℕ) : ℕ → List Byte → List Byte
  | _, [] => []
  | i, b :: rest => (b + pad key nonce dst i) :: xorStream key nonce dst (i + 1) rest

/-- Ideal stream decryption: subtract the keystream byte-by-byte. -/
def unxorStream (key : Zq) (nonce dst : ℕ) : ℕ → List Byte → List Byte
  | _, [] => []
  | i, b :: rest => (b - pad key nonce dst i) :: unxorStream key nonce dst (i + 1) rest

theorem unxorStream_xorStream (key : Zq) (nonce dst : ℕ) :
    ∀ (i : ℕ) (data : List Byte),
      unxorStream key nonce dst i (xorStream key nonce dst i data) = data := by
  intro i data
  induction data generalizing i with
  | nil => rfl
  | cons b rest ih => simp [xorStream, unxorStream, ih]

/-- Injective encoding of a byte string into a natural number, the basis of
the ideal authentication tag. -/
def encodeByteList (l : List Byte) : ℕ :=
  l.foldr (fun b acc => Nat.pair b.val acc + 1) 0

theorem encodeByteList_inj : ∀ {l₁ l₂ : List Byte},
    encodeByteList l₁ = encodeByteList l₂ → l₁ = l₂
  | [], [], _ => rfl
  | [], b :: r, h => by simp [encodeByteList] at h
  | b :: r, [], h => by simp [encodeByteList] at h
  | b₁ :: r₁, b₂ :: r₂, h => by
      simp only [encodeByteList, List.foldr_cons, Nat.add_right_cancel_iff,
        Nat.pair_eq_pair] at h
      obtain ⟨hb, hr⟩ := h
      have hb' : b₁ = b₂ := ZMod.val_injective 256 hb
      have hr' : r₁ = r₂ := encodeByteList_inj hr
      rw [hb', hr']

/-- Encoding of the optional associated data. -/
def encodeAad : Option (List Byte) → ℕ
  | none => 0
  | some l => encodeByteList l + 1

/-- Ideal authentication tag over content key, nonce, mode tag, encrypted blob
and associated data.  The specification states flatly that any modification of
ciphertext or tag is detected, so the tag is modelled as an injective function
of its inputs. -/
def macTag (key : Zq) (nonce dst : ℕ) (blob : List Byte)
    (aad : Option (List Byte)) : ℕ :=
  Nat.pair key.val (Nat.pair nonce (Nat.pair dst
    (Nat.pair (encodeByteList blob) (encodeAad aad))))

theorem macTag_ne_of_blob_ne {key : Zq} {nonce dst : ℕ} {blob blob' : List Byte}
    {aad : Option (List Byte)} (h : blob ≠ blob') :
    macTag key nonce dst blob aad ≠ macTag key nonce dst blob' aad := by
  intro hmac
  simp only [macTag, Nat.pair_eq_pair] at hmac
  exact h (encodeByteList_inj hmac.2.2.2.1)

/-- The 32-byte encoding of a content key, as returned to callers. -/
def keyBytes (key : Zq) : List Byte :=
  natToBytes 32 key.val

/-- Horner evaluation of a polynomial given by its coefficient list (constant
term first). -/
def polyEval (coeffs : List Zq) (x : Zq) : Zq :=
  coeffs.foldr (fun c acc => c + x * acc) 0

/-- Modelled from the spec: the random inputs `seal_encrypt` consumes — the
fresh content key, the ephemeral encapsulation scalar, the higher coefficients
of the degree-(t-1) sharing polynomial, and the symmetric nonce. -/
structure SealRandomness where
  key : Zq
  r : Zq
  coeffs : ℕ → Zq
  nonce : ℕ

/-- The sharing polynomial of a seal call: the content key is the constant
term, followed by the `threshold - 1` random higher coefficients. -/
def sharingPoly (key : Zq) (coeffs : ℕ → Zq) (threshold : ℕ) : List Zq :=
  key :: (List.range (threshold - 1)).map coeffs

/-- Symmetric layer of sealing: encrypt the payload under the requested mode
and authenticate it. -/
def encryptInput (input : EncryptionInput) (rnd : SealRandomness) : Ciphertext :=
  match input with
  | .Aes256Gcm data aad =>
      let blob := xorStream rnd.key rnd.nonce 0 0 data
      .Aes256Gcm blob aad rnd.nonce (macTag rnd.key rnd.nonce 0 blob aad)
  | .Hmac256Ctr data aad =>
      let blob := xorStream rnd.key rnd.nonce 1 0 data
      .Hmac256Ctr blob aad rnd.nonce (macTag rnd.key rnd.nonce 1 blob aad)
  | .Plain => .Plain

/-- Modelled from the spec: `seal_encrypt` of the missing `crypto` crate (the
Threshold Sealer of section 4.5).  It validates the configuration, derives the
full identity, splits the fresh content key into one encapsulated share per
server via the sharing polynomial (share `i` is masked, Boneh-Franklin style,
by the pairing value `e(pk_i, H(fid)) ^ r`, which in the exponent model is
`r · pk_i · H(fid)`), encrypts the payload under the requested mode, and
returns the assembled object together with the 32-byte content key. -/
def seal_encrypt (package_id : ObjectID) (id : List Byte)
    (services : List ObjectID) (public_keys : List Zq) (threshold : ℕ)
    (input : EncryptionInput) (rnd : SealRandomness) :
    SealResult (EncryptedObject × List Byte) :=
  if ¬ services.Nodup ∨ public_keys.length ≠ services.length then
    .error (.ConfigError .InvalidServerList)
  else if threshold = 0 ∨ services.length < threshold then
    .error (.ConfigError .InvalidThreshold)
  else
    let fid := create_full_id package_id id
    let h := hashToScalar fid
    let coeffs := sharingPoly rnd.key rnd.coeffs threshold
    let shares := (List.range services.length).map
      (fun i => polyEval coeffs ((i + 1 : ℕ) : Zq) + rnd.r * public_keys.getD i 0 * h)
    .ok ({ package_id := package_id, id := id, services := services,
           threshold := threshold, encap := rnd.r, shares := shares,
           ciphertext := encryptInput input rnd }, keyBytes rnd.key)

/-- Symmetric layer of unsealing: check the authentication tag and only then
decrypt; in raw-key mode return the 32-byte content key itself. -/
def openCiphertext (key : Zq) (ct : Ciphertext) : SealResult (List Byte) :=
  match ct with
  | .Aes256Gcm blob aad nonce tag =>
      if macTag key nonce 0 blob aad = tag then .ok (unxorStream key nonce 0 0 blob)
      else .error .AuthenticationFailure
  | .Hmac256Ctr blob aad nonce mac =>
      if macTag key nonce 1 blob aad = mac then .ok (unxorStream key nonce 1 0 blob)
      else .error .AuthenticationFailure
  | .Plain => .ok (keyBytes key)

/-- Lagrange coefficient at zero for the node `x` within the node list. -/
def lagrangeWeight (nodes : List Zq) (x : Zq) : Zq :=
  ((nodes.filter (fun y => y ≠ x)).map (fun y => y * (y - x)⁻¹)).prod

/-- Interpolation at zero of the secret from the supplied (node, share)
pairs. -/
def reconstructKey (pts : List (Zq × Zq)) : Zq :=
  (pts.map (fun p => p.2 * lagrangeWeight (pts.map Prod.fst) p.1)).sum

/-- The verification step (b) of unsealing: with public keys supplied, every
offered share must pass the pairing check against the public key recorded at
the position of its server in the object; without them no check is done. -/
def offeredValid (obj : EncryptedObject) (usks : List (ObjectID × Zq)) :
    Option (List Zq) → Prop
  | none => True
  | some pks => ∀ p ∈ usks,
      p.2 = pks.getD (obj.services.indexOf p.1) 0
              * hashToScalar (create_full_id obj.package_id obj.id)

instance (obj : EncryptedObject) (usks : List (ObjectID × Zq)) :
    (pks : Option (List Zq)) → Decidable (offeredValid obj usks pks)
  | none => .isTrue trivial
  | some _pks => (inferInstance : Decidable (∀ p ∈ usks, _))

/-- Modelled from the spec: `seal_decrypt` of the missing `crypto` crate (the
Threshold Unsealer of section 4.6).  Steps, in order: (a) reject a share
referencing a server outside the object with `UnknownServer`; (b) with public
keys supplied, verify every offered share; (c) require at least `threshold`
distinct-server shares, else `InsufficientShares`; (d) decapsulate each share
(`share_i = enc_i - r · usk_i` in the exponent model) and interpolate the
content key at zero from exactly the supplied shares; (e) open the payload,
which in the authenticated modes checks the tag before returning anything. -/
def seal_decrypt (obj : EncryptedObject) (usks : List (ObjectID × Zq))
    (public_keys : Option (List Zq)) : SealResult (List Byte) :=
  if ¬ ∀ p ∈ usks, p.1 ∈ obj.services then .error .UnknownServer
  else if ¬ offeredValid obj usks public_keys then .error .VerificationError
  else if (usks.map Prod.fst).dedup.length < obj.threshold then
    .error .InsufficientShares
  else
    let pts := usks.map (fun p =>
      let i := obj.services.indexOf p.1
      (((i + 1 : ℕ) : Zq), obj.shares.getD i 0 - obj.encap * p.2))
    openCiphertext (reconstructKey pts) obj.ciphertext

/-- The plaintext a successful unseal must return: the sealed payload in the
two authenticated modes, the 32-byte content key in raw-key mode. -/
def expectedPlaintext (input : EncryptionInput) (key : Zq) : List Byte :=
  match input with
  | .Aes256Gcm data _ => data
  | .Hmac256Ctr data _ => data
  | .Plain => keyBytes key

theorem one_add_lt_succCast {a : WithBot ℕ} {n : ℕ} (h : a < (n : WithBot ℕ)) :
    1 + a < ((n + 1 : ℕ) : WithBot ℕ) := by
  induction a using WithBot.recBotCoe with
  | bot =>
      rw [WithBot.add_bot]
      exact_mod_cast WithBot.bot_lt_coe (n + 1)
  | coe k =>
      have hk : k < n := by
        rw [Nat.cast_withBot, WithBot.coe_lt_coe] at h
        exact h
      rw [Nat.cast_withBot, ← WithBot.coe_one, ← WithBot.coe_add, WithBot.coe_lt_coe]
      omega

theorem polyEval_eq_eval (coeffs : List Zq) (x : Zq) :
    polyEval coeffs x = Polynomial.eval x
      (coeffs.foldr (fun c acc => Polynomial.C c + Polynomial.X * acc) 0) := by
  induction coeffs with
  | nil => simp [polyEval]
  | cons c rest ih =>
      simp only [polyEval, List.foldr_cons, Polynomial.eval_add, Polynomial.eval_mul,
        Polynomial.eval_C, Polynomial.eval_X] at ih ⊢
      rw [ih]

theorem degree_listPoly_lt (coeffs : List Zq) :
    (coeffs.foldr (fun c acc => Polynomial.C c + Polynomial.X * acc) 0).degree
      < (coeffs.length : WithBot ℕ) := by
  induction coeffs with
  | nil =>
      simp only [List.foldr_nil, Polynomial.degree_zero, List.length_nil]
      exact_mod_cast WithBot.bot_lt_coe 0
  | cons c rest ih =>
      simp only [List.foldr_cons, List.length_cons]
      refine lt_of_le_of_lt (Polynomial.degree_add_le _ _) (max_lt ?_ ?_)
      · refine lt_of_le_of_lt Polynomial.degree_C_le ?_
        exact_mod_cast WithBot.coe_lt_coe.2 (Nat.succ_pos rest.length)
      · refine lt_of_le_of_lt (Polynomial.degree_mul_le _ _) ?_
        rw [Polynomial.degree_X]
        exact one_add_lt_succCast ih

theorem toFinset_filter_ne (nodes : List Zq) (x : Zq) :
    (nodes.filter (fun y => y ≠ x)).toFinset = nodes.toFinset.erase x := by
  ext a
  simp only [List.mem_toFinset, List.mem_filter, Finset.mem_erase, decide_eq_true_eq]
  exact and_comm

theorem lagrangeWeight_eq_basisEval (nodes : List Zq) (x : Zq) (hnd : nodes.Nodup) :
    lagrangeWeight nodes x
      = Polynomial.eval 0 (Lagrange.basis nodes.toFinset (id : Zq → Zq) x) := by
  rw [lagrangeWeight, ← List.prod_toFinset _ (hnd.filter _), toFinset_filter_ne,
    Lagrange.basis, Polynomial.eval_prod]
  refine Finset.prod_congr rfl ?_
  intro y hy
  have hyx : y ≠ x := (Finset.mem_erase.1 hy).1
  simp only [Lagrange.basisDivisor, Polynomial.eval_mul, Polynomial.eval_C,
    Polynomial.eval_sub, Polynomial.eval_X, id_eq, zero_sub]
  rw [show (x : Zq) - y = -(y - x) by ring, inv_neg]
  ring

/-- Correctness of interpolation at zero: if every supplied point lies on the
sharing polynomial, the nodes are distinct, and at least as many points as
coefficients are supplied, reconstruction returns the constant term. -/
theorem reconstructKey_eq (coeffs : List Zq) (pts : List (Zq × Zq))
    (hnd : (pts.map Prod.fst).Nodup)
    (hlen : coeffs.length ≤ pts.length)
    (hon : ∀ p ∈ pts, p.2 = polyEval coeffs p.1) :
    reconstructKey pts = polyEval coeffs 0 := by
  classical
  set nodes := pts.map Prod.fst with hnodes
  set s := nodes.toFinset with hs
  set F := coeffs.foldr (fun c acc => Polynomial.C c + Polynomial.X * acc) 0 with hF
  have hdegF : F.degree < (s.card : WithBot ℕ) := by
    have hcard : s.card = nodes.length := List.toFinset_card_of_nodup hnd
    have hlen2 : nodes.length = pts.length := List.length_map _ _
    refine lt_of_lt_of_le (degree_listPoly_lt coeffs) ?_
    have : coeffs.length ≤ s.card := by omega
    exact_mod_cast WithBot.coe_le_coe.2 this
  have hinj : Set.InjOn (id : Zq → Zq) ↑s := fun a _ b _ h => h
  have hinterp := Lagrange.eq_interpolate hinj hdegF
  have heval := congrArg (Polynomial.eval 0) hinterp
  rw [Lagrange.interpolate_apply, Polynomial.eval_finset_sum] at heval
  simp only [Polynomial.eval_mul, Polynomial.eval_C, id_eq] at heval
  have hmap : pts.map (fun p => p.2 * lagrangeWeight nodes p.1)
      = nodes.map (fun x => polyEval coeffs x * lagrangeWeight nodes x) := by
    rw [hnodes, List.map_map]
    refine List.map_congr_left ?_
    intro p hp
    simp only [Function.comp_apply]
    rw [hon p hp]
  calc reconstructKey pts
      = (nodes.map (fun x => polyEval coeffs x * lagrangeWeight nodes x)).sum := by
        rw [reconstructKey, ← hnodes, hmap]
    _ = s.sum (fun x => polyEval coeffs x * lagrangeWeight nodes x) :=
        (List.sum_toFinset _ hnd).symm
    _ = s.sum (fun x => F.eval x * Polynomial.eval 0 (Lagrange.basis s id x)) := by
        refine Finset.sum_congr rfl ?_
        intro x _
        rw [polyEval_eq_eval, ← hF, lagrangeWeight_eq_basisEval nodes x hnd, hs]
    _ = F.eval 0 := heval.symm
    _ = polyEval coeffs 0 := (polyEval_eq_eval _ _).symm

theorem natCast_zq_inj {a b : ℕ} (ha : a < fieldOrder) (hb : b < fieldOrder)
    (h : (a : Zq) = (b : Zq)) : a = b := by
  have hv := congrArg ZMod.val h
  rwa [ZMod.val_cast_of_lt ha, ZMod.val_cast_of_lt hb] at hv

theorem polyEval_zero (c : Zq) (rest : List Zq) : polyEval (c :: rest) 0 = c := by
  simp [polyEval]

theorem length_sharingPoly (key : Zq) (coeffs : ℕ → Zq) {t : ℕ} (ht : t ≠ 0) :
    (sharingPoly key coeffs t).length = t := by
  simp only [sharingPoly, List.length_cons, List.length_map, List.length_range]
  omega

/-- Inversion of a successful seal: the configuration checks passed and the
returned object has exactly the assembled fields. -/
theorem seal_encrypt_ok {pkg : ObjectID} {id : List Byte}
    {services : List ObjectID} {pks : List Zq} {t : ℕ} {input : EncryptionInput}
    {rnd : SealRandomness} {obj : EncryptedObject} {kb : List Byte}
    (h : seal_encrypt pkg id services pks t input rnd = .ok (obj, kb)) :
    services.Nodup ∧ pks.length = services.length ∧ t ≠ 0 ∧ t ≤ services.length ∧
    obj = { package_id := pkg, id := id, services := services, threshold := t,
            encap := rnd.r,
            shares := (List.range services.length).map
              (fun i => polyEval (sharingPoly rnd.key rnd.coeffs t) ((i + 1 : ℕ) : Zq)
                + rnd.r * pks.getD i 0 * hashToScalar (create_full_id pkg id)),
            ciphertext := encryptInput input rnd } ∧
    kb = keyBytes rnd.key := by
  rw [seal_encrypt] at h
  by_cases h1 : ¬ services.Nodup ∨ pks.length ≠ services.length
  · rw [if_pos h1] at h
    exact absurd h (by simp)
  by_cases h2 : t = 0 ∨ services.length < t
  · rw [if_neg h1, if_pos h2] at h
    exact absurd h (by simp)
  rw [if_neg h1, if_neg h2] at h
  push_neg at h1 h2
  simp only [SealResult.ok.injEq, Prod.mk.injEq] at h
  exact ⟨h1.1, h1.2, h2.1, h2.2, h.1.symm, h.2.symm⟩

/-- Unsealing a sealed object: for any nodup selection of at least `threshold`
server indices, with the matching extracted shares and the true public keys,
all checks pass, the decapsulated shares lie on the sharing polynomial, and
interpolation returns the seal-time content key, so unsealing reduces to
opening the symmetric layer under that key. -/
theorem seal_decrypt_sealed (pkg : ObjectID) (id : List Byte)
    (services : List ObjectID) (mks : List Zq) (t : ℕ) (rnd : SealRandomness)
    (sel : List ℕ) (ct : Ciphertext)
    (hnodup : services.Nodup)
    (hsmall : services.length < fieldOrder)
    (ht0 : t ≠ 0)
    (hsel_nd : sel.Nodup)
    (hsel_lt : ∀ i ∈ sel, i < services.length)
    (hsel_card : t ≤ sel.length) :
    seal_decrypt
      { package_id := pkg, id := id, services := services, threshold := t,
        encap := rnd.r,
        shares := (List.range services.length).map
          (fun i => polyEval (sharingPoly rnd.key rnd.coeffs t) ((i + 1 : ℕ) : Zq)
            + rnd.r * mks.getD i 0 * hashToScalar (create_full_id pkg id)),
        ciphertext := ct }
      (sel.map (fun i =>
        (services.getD i 0, extract (mks.getD i 0) (create_full_id pkg id))))
      (some mks)
    = openCiphertext rnd.key ct := by
  have hidx : ∀ i ∈ sel, List.indexOf (services.getD i 0) services = i := by
    intro i hi
    have hilt := hsel_lt i hi
    rw [List.getD_eq_getElem services 0 hilt]
    exact List.indexOf_getElem hnodup i hilt
  have hshare : ∀ i ∈ sel, ((List.range services.length).map
        (fun j => polyEval (sharingPoly rnd.key rnd.coeffs t) ((j + 1 : ℕ) : Zq)
          + rnd.r * mks.getD j 0 * hashToScalar (create_full_id pkg id))).getD i 0
      = polyEval (sharingPoly rnd.key rnd.coeffs t) ((i + 1 : ℕ) : Zq)
          + rnd.r * mks.getD i 0 * hashToScalar (create_full_id pkg id) := by
    intro i hi
    have hilt := hsel_lt i hi
    have hlt' : i < ((List.range services.length).map
        (fun j => polyEval (sharingPoly rnd.key rnd.coeffs t) ((j + 1 : ℕ) : Zq)
          + rnd.r * mks.getD j 0 * hashToScalar (create_full_id pkg id))).length := by
      simpa using hilt
    rw [List.getD_eq_getElem _ _ hlt', List.getElem_map, List.getElem_range]
  have ha : ∀ p ∈ sel.map (fun i =>
      (services.getD i 0, extract (mks.getD i 0) (create_full_id pkg id))),
      p.1 ∈ services := by
    intro p hp
    obtain ⟨i, hi, rfl⟩ := List.mem_map.1 hp
    have hilt := hsel_lt i hi
    have : services.getD i 0 ∈ services := by
      rw [List.getD_eq_getElem services 0 hilt]
      exact List.getElem_mem hilt
    exact this
  have hb : offeredValid
      { package_id := pkg, id := id, services := services, threshold := t,
        encap := rnd.r,
        shares := (List.range services.length).map
          (fun i => polyEval (sharingPoly rnd.key rnd.coeffs t) ((i + 1 : ℕ) : Zq)
            + rnd.r * mks.getD i 0 * hashToScalar (create_full_id pkg id)),
        ciphertext := ct }
      (sel.map (fun i =>
        (services.getD i 0, extract (mks.getD i 0) (create_full_id pkg id))))
      (some mks) := by
    intro p hp
    obtain ⟨i, hi, rfl⟩ := List.mem_map.1 hp
    show extract (mks.getD i 0) (create_full_id pkg id)
      = mks.getD (List.indexOf (services.getD i 0) services) 0
          * hashToScalar (create_full_id pkg id)
    rw [hidx i hi, extract]
  have hfst : (sel.map (fun i =>
      (services.getD i 0, extract (mks.getD i 0) (create_full_id pkg id)))).map Prod.fst
      = sel.map (fun i => services.getD i 0) := by
    rw [List.map_map]
    rfl
  have hfst_nd : (sel.map (fun i => services.getD i 0)).Nodup := by
    refine List.Nodup.map_on ?_ hsel_nd
    intro i hi j hj hij
    have hilt := hsel_lt i hi
    have hjlt := hsel_lt j hj
    rw [List.getD_eq_getElem services 0 hilt, List.getD_eq_getElem services 0 hjlt] at hij
    have : List.indexOf services[i] services = List.indexOf services[j] services := by
      rw [hij]
    rwa [List.indexOf_getElem hnodup i hilt, List.indexOf_getElem hnodup j hjlt] at this
  have hc : ¬ ((sel.map (fun i =>
      (services.getD i 0, extract (mks.getD i 0) (create_full_id pkg id)))).map
        Prod.fst).dedup.length < t := by
    rw [hfst, hfst_nd.dedup, List.length_map]
    omega
  have hkey : reconstructKey ((sel.map (fun i =>
      (services.getD i 0, extract (mks.getD i 0) (create_full_id pkg id)))).map
        (fun p => (((List.indexOf p.1 services + 1 : ℕ) : Zq),
          ((List.range services.length).map
            (fun j => polyEval (sharingPoly rnd.key rnd.coeffs t) ((j + 1 : ℕ) : Zq)
              + rnd.r * mks.getD j 0 * hashToScalar (create_full_id pkg id))).getD
                (List.indexOf p.1 services) 0
            - rnd.r * p.2))) = rnd.key := by
    have hpts : (sel.map (fun i =>
        (services.getD i 0, extract (mks.getD i 0) (create_full_id pkg id)))).map
          (fun p => (((List.indexOf p.1 services + 1 : ℕ) : Zq),
            ((List.range services.length).map
              (fun j => polyEval (sharingPoly rnd.key rnd.coeffs t) ((j + 1 : ℕ) : Zq)
                + rnd.r * mks.getD j 0 * hashToScalar (create_full_id pkg id))).getD
                  (List.indexOf p.1 services) 0
              - rnd.r * p.2))
        = sel.map (fun i => (((i + 1 : ℕ) : Zq),
            polyEval (sharingPoly rnd.key rnd.coeffs t) ((i + 1 : ℕ) : Zq))) := by
      rw [List.map_map]
      refine List.map_congr_left ?_
      intro i hi
      simp only [Function.comp_apply]
      rw [hidx i hi, hshare i hi, extract]
      refine Prod.ext rfl ?_
      show polyEval (sharingPoly rnd.key rnd.coeffs t) ((i + 1 : ℕ) : Zq)
            + rnd.r * mks.getD i 0 * hashToScalar (create_full_id pkg id)
          - rnd.r * (mks.getD i 0 * hashToScalar (create_full_id pkg id))
        = polyEval (sharingPoly rnd.key rnd.coeffs t) ((i + 1 : ℕ) : Zq)
      ring
    rw [hpts]
    have hnd2 : ((sel.map (fun i => (((i + 1 : ℕ) : Zq),
        polyEval (sharingPoly rnd.key rnd.coeffs t) ((i + 1 : ℕ) : Zq)))).map
          Prod.fst).Nodup := by
      rw [List.map_map]
      refine List.Nodup.map_on ?_ hsel_nd
      intro i hi j hj hij
      simp only [Function.comp_apply] at hij
      have := natCast_zq_inj (a := i + 1) (b := j + 1)
        (by have := hsel_lt i hi; omega) (by have := hsel_lt j hj; omega) hij
      omega
    have hlen2 : (sharingPoly rnd.key rnd.coeffs t).length
        ≤ (sel.map (fun i => (((i + 1 : ℕ) : Zq),
            polyEval (sharingPoly rnd.key rnd.coeffs t) ((i + 1 : ℕ) : Zq)))).length := by
      rw [length_sharingPoly _ _ ht0, List.length_map]
      exact hsel_card
    have hon : ∀ p ∈ sel.map (fun i => (((i + 1 : ℕ) : Zq),
        polyEval (sharingPoly rnd.key rnd.coeffs t) ((i + 1 : ℕ) : Zq))),
        p.2 = polyEval (sharingPoly rnd.key rnd.coeffs t) p.1 := by
      intro p hp
      obtain ⟨i, _, rfl⟩ := List.mem_map.1 hp
      rfl
    rw [reconstructKey_eq _ _ hnd2 hlen2 hon, sharingPoly, polyEval_zero]
  simp only [seal_decrypt]
  rw [if_neg (not_not_intro ha), if_neg (not_not_intro hb), if_neg hc, hkey]

theorem openCiphertext_encryptInput (input : EncryptionInput) (rnd : SealRandomness) :
    openCiphertext rnd.key (encryptInput input rnd)
      = .ok (expectedPlaintext input rnd.key) := by
  cases input with
  | Aes256Gcm data aad =>
      simp [encryptInput, openCiphertext, expectedPlaintext, unxorStream_xorStream]
  | Hmac256Ctr data aad =>
      simp [encryptInput, openCiphertext, expectedPlaintext, unxorStream_xorStream]
  | Plain => rfl

/-- C1 — Threshold round trip: for every seal of a payload under distinct
servers with threshold `t`, unsealing the resulting object with the shares of
any nodup selection of at least `t` of its servers (each share extracted for
exactly the sealed full identity, the true public keys supplied) returns
exactly the sealed payload, and in raw-key mode the identical 32-byte content
key produced at seal time — independently of which selection is chosen. -/
theorem C1_threshold_round_trip (pkg : ObjectID) (id : List Byte)
    (services : List ObjectID) (mks : List Zq) (t : ℕ) (input : EncryptionInput)
    (rnd : SealRandomness) (sel : List ℕ) (obj : EncryptedObject) (kb : List Byte)
    (hsmall : services.length < fieldOrder)
    (hsel_nd : sel.Nodup)
    (hsel_lt : ∀ i ∈ sel, i < services.length)
    (hsel_card : t ≤ sel.length)
    (hseal : seal_encrypt pkg id services mks t input rnd = .ok (obj, kb)) :
    seal_decrypt obj
      (sel.map (fun i =>
        (services.getD i 0, extract (mks.getD i 0) (create_full_id pkg id))))
      (some mks)
    = .ok (expectedPlaintext input rnd.key)
    ∧ (input = EncryptionInput.Plain →
        seal_decrypt obj
          (sel.map (fun i =>
            (services.getD i 0, extract (mks.getD i 0) (create_full_id pkg id))))
          (some mks)
        = .ok kb) := by
  obtain ⟨hnd, _hlen, ht0, _htn, hobj, hkb⟩ := seal_encrypt_ok hseal
  subst hobj
  have hmain := seal_decrypt_sealed pkg id services mks t rnd sel
    (encryptInput input rnd) hnd hsmall ht0 hsel_nd hsel_lt hsel_card
  rw [hmain, openCiphertext_encryptInput]
  refine ⟨rfl, ?_⟩
  intro hplain
  subst hplain
  rw [hkb]
  rfl

/-- Witness for C1 at a concrete 2-of-3 configuration, selecting the first and
third servers. -/
theorem C1_threshold_round_trip_witness :
    seal_decrypt ⟨0, [], [10, 20, 30], 2, 6, [12, 19, 26], Ciphertext.Plain⟩
      ([0, 2].map (fun i =>
        (([10, 20, 30] : List ObjectID).getD i 0,
          extract (([3, 4, 5] : List Zq).getD i 0) (create_full_id 0 []))))
      (some [3, 4, 5])
    = .ok (expectedPlaintext EncryptionInput.Plain (5 : Zq))
    ∧ (EncryptionInput.Plain = EncryptionInput.Plain →
        seal_decrypt ⟨0, [], [10, 20, 30], 2, 6, [12, 19, 26], Ciphertext.Plain⟩
          ([0, 2].map (fun i =>
            (([10, 20, 30] : List ObjectID).getD i 0,
              extract (([3, 4, 5] : List Zq).getD i 0) (create_full_id 0 []))))
          (some [3, 4, 5])
        = .ok (keyBytes 5)) :=
  C1_threshold_round_trip 0 [] [10, 20, 30] [3, 4, 5] 2 .Plain ⟨5, 6, fun _ => 7, 9⟩
    [0, 2] ⟨0, [], [10, 20, 30], 2, 6, [12, 19, 26], Ciphertext.Plain⟩ (keyBytes 5)
    (by decide) (by decide) (by decide) (by decide) (by decide)

/-- C2 — Sub-threshold rejection: when fewer than `threshold` distinct-server
shares are supplied, `seal_decrypt` never returns a plaintext or key, and if
the shares reference known servers and pass verification it fails with exactly
`InsufficientShares`, without attempting reconstruction. -/
theorem C2_sub_threshold_rejection (obj : EncryptedObject)
    (usks : List (ObjectID × Zq)) (pks : Option (List Zq))
    (hcount : (usks.map Prod.fst).dedup.length < obj.threshold) :
    (∀ out, seal_decrypt obj usks pks ≠ .ok out)
    ∧ ((∀ p ∈ usks, p.1 ∈ obj.services) → offeredValid obj usks pks →
        seal_decrypt obj usks pks = .error .InsufficientShares) := by
  have hresult : seal_decrypt obj usks pks = .error .UnknownServer ∨
      seal_decrypt obj usks pks = .error .VerificationError ∨
      seal_decrypt obj usks pks = .error .InsufficientShares := by
    rw [seal_decrypt]
    by_cases hA : ∀ p ∈ usks, p.1 ∈ obj.services
    · rw [if_neg (not_not_intro hA)]
      by_cases hB : offeredValid obj usks pks
      · rw [if_neg (not_not_intro hB), if_pos hcount]
        exact Or.inr (Or.inr rfl)
      · rw [if_pos hB]
        exact Or.inr (Or.inl rfl)
    · rw [if_pos hA]
      exact Or.inl rfl
  constructor
  · intro out hout
    rcases hresult with h | h | h <;> rw [h] at hout <;> exact SealResult.noConfusion hout
  · intro hA hB
    rw [seal_decrypt, if_neg (not_not_intro hA), if_neg (not_not_intro hB),
      if_pos hcount]

/-- Witness for C2: one valid share of a known server against a threshold of
two is rejected with `InsufficientShares`. -/
theorem C2_sub_threshold_rejection_witness :
    seal_decrypt ⟨0, [], [10, 20, 30], 2, 6, [12, 19, 26], Ciphertext.Plain⟩
      [(10, extract 3 (create_full_id 0 []))] (some [3, 4, 5])
    = .error .InsufficientShares :=
  (C2_sub_threshold_rejection
    ⟨0, [], [10, 20, 30], 2, 6, [12, 19, 26], Ciphertext.Plain⟩
    [(10, extract 3 (create_full_id 0 []))] (some [3, 4, 5])
    (by decide)).2 (by decide) (by decide)

/-- C3 — Verification soundness and completeness: `verify_user_secret_key`
succeeds exactly when the offered share equals `extract` of the master key
corresponding to the public key share at exactly this full identity, and on
any mismatch of that value it fails with `VerificationError`. -/
theorem C3_verification_iff (msk : Zq) (full_id : List Byte) (usk : Zq) :
    (verify_user_secret_key usk full_id (into_key_pair msk).2 = .ok ()
      ↔ usk = extract msk full_id)
    ∧ (usk ≠ extract msk full_id →
        verify_user_secret_key usk full_id (into_key_pair msk).2
          = .error .VerificationError) := by
  unfold verify_user_secret_key extract into_key_pair
  constructor
  · constructor
    · intro h
      by_contra hne
      rw [if_neg hne] at h
      exact SealResult.noConfusion h
    · intro h
      rw [if_pos h]
  · intro hne
    rw [if_neg hne]

/-- Witness for C3: a share not equal to the extraction is rejected. -/
theorem C3_verification_iff_witness :
    verify_user_secret_key 7 [1] (into_key_pair 3).2
      = .error .VerificationError :=
  (C3_verification_iff 3 [1] 7).2 (by decide)

/-- C4 — Config rejection: a duplicate server id makes `seal_encrypt` fail
with `ConfigError InvalidServerList`; a zero threshold or a threshold above
the server count makes it fail with `ConfigError InvalidThreshold`; in either
case the outcome is independent of the random key material, i.e. the call
fails before any key material is used, and no object is produced. -/
theorem C4_config_rejection (pkg : ObjectID) (id : List Byte)
    (services : List ObjectID) (pks : List Zq) (t : ℕ)
    (input : EncryptionInput) (rnd : SealRandomness) :
    (¬ services.Nodup →
      seal_encrypt pkg id services pks t input rnd
        = .error (.ConfigError .InvalidServerList))
    ∧ (services.Nodup → pks.length = services.length →
        (t = 0 ∨ services.length < t) →
        seal_encrypt pkg id services pks t input rnd
          = .error (.ConfigError .InvalidThreshold))
    ∧ (∀ rnd' : SealRandomness, (¬ services.Nodup ∨ t = 0 ∨ services.length < t) →
        seal_encrypt pkg id services pks t input rnd
          = seal_encrypt pkg id services pks t input rnd') := by
  refine ⟨?_, ?_, ?_⟩
  · intro hdup
    rw [seal_encrypt, if_pos (Or.inl hdup)]
  · intro hnd hlen ht
    rw [seal_encrypt, if_neg (by push_neg; exact ⟨hnd, hlen⟩), if_pos ht]
  · intro rnd' hviol
    by_cases h1 : ¬ services.Nodup ∨ pks.length ≠ services.length
    · rw [seal_encrypt, if_pos h1, seal_encrypt, if_pos h1]
    · have ht : t = 0 ∨ services.length < t := by
        rcases hviol with h | h | h
        · exact absurd (Or.inl h) h1
        · exact Or.inl h
        · exact Or.inr h
      rw [seal_encrypt, if_neg h1, if_pos ht, seal_encrypt, if_neg h1, if_pos ht]

/-- Witness for C4: a duplicated server id is rejected as an invalid server
list. -/
theorem C4_config_rejection_witness :
    seal_encrypt 0 [] [10, 10] [3, 4] 1 .Plain ⟨5, 6, fun _ => 7, 9⟩
      = .error (.ConfigError .InvalidServerList) :=
  (C4_config_rejection 0 [] [10, 10] [3, 4] 1 .Plain ⟨5, 6, fun _ => 7, 9⟩).1
    (by decide)

/-- C6 — Unknown-server rejection: whenever the supplied share map references
a server id absent from the recorded server list of the object, unsealing
rejects with `UnknownServer`, whatever the public keys, the other shares or
the threshold are. -/
theorem C6_unknown_server_rejection (obj : EncryptedObject)
    (usks : List (ObjectID × Zq)) (pks : Option (List Zq))
    (h : ∃ p ∈ usks, p.1 ∉ obj.services) :
    seal_decrypt obj usks pks = .error .UnknownServer := by
  rw [seal_decrypt, if_pos (by push_neg; exact h)]

/-- Witness for C6: a share naming server 99, absent from the object. -/
theorem C6_unknown_server_rejection_witness :
    seal_decrypt ⟨0, [], [10, 20, 30], 2, 6, [12, 19, 26], Ciphertext.Plain⟩
      [(99, 0)] none = .error .UnknownServer :=
  C6_unknown_server_rejection
    ⟨0, [], [10, 20, 30], 2, 6, [12, 19, 26], Ciphertext.Plain⟩
    [(99, 0)] none (by decide)

/-- The encrypted blob of a ciphertext (empty in raw-key mode). -/
def ctBlob : Ciphertext → List Byte
  | .Aes256Gcm blob _ _ _ => blob
  | .Hmac256Ctr blob _ _ _ => blob
  | .Plain => []

/-- The authentication tag of a ciphertext (zero in raw-key mode). -/
def ctTag : Ciphertext → ℕ
  | .Aes256Gcm _ _ _ tag => tag
  | .Hmac256Ctr _ _ _ mac => mac
  | .Plain => 0

/-- Replace the encrypted blob of a ciphertext. -/
def setCtBlob : Ciphertext → List Byte → Ciphertext
  | .Aes256Gcm _ aad nonce tag, blob => .Aes256Gcm blob aad nonce tag
  | .Hmac256Ctr _ aad nonce mac, blob => .Hmac256Ctr blob aad nonce mac
  | .Plain, _ => .Plain

/-- Replace the authentication tag of a ciphertext. -/
def setCtTag : Ciphertext → ℕ → Ciphertext
  | .Aes256Gcm blob aad nonce _, tag => .Aes256Gcm blob aad nonce tag
  | .Hmac256Ctr blob aad nonce _, mac => .Hmac256Ctr blob aad nonce mac
  | .Plain, _ => .Plain

/-- Replace the symmetric layer of an encrypted object. -/
def withCiphertext (obj : EncryptedObject) (ct : Ciphertext) : EncryptedObject :=
  { obj with ciphertext := ct }

theorem openCiphertext_blob_tampered (input : EncryptionInput)
    (rnd : SealRandomness) (blob' : List Byte)
    (hauth : input ≠ .Plain)
    (hne : blob' ≠ ctBlob (encryptInput input rnd)) :
    openCiphertext rnd.key (setCtBlob (encryptInput input rnd) blob')
      = .error .AuthenticationFailure := by
  cases input with
  | Aes256Gcm data aad =>
      simp only [encryptInput, ctBlob] at hne ⊢
      rw [setCtBlob, openCiphertext,
        if_neg (macTag_ne_of_blob_ne hne)]
  | Hmac256Ctr data aad =>
      simp only [encryptInput, ctBlob] at hne ⊢
      rw [setCtBlob, openCiphertext,
        if_neg (macTag_ne_of_blob_ne hne)]
  | Plain => exact absurd rfl hauth

theorem openCiphertext_tag_tampered (input : EncryptionInput)
    (rnd : SealRandomness) (tg : ℕ)
    (hauth : input ≠ .Plain)
    (hne : tg ≠ ctTag (encryptInput input rnd)) :
    openCiphertext rnd.key (setCtTag (encryptInput input rnd) tg)
      = .error .AuthenticationFailure := by
  cases input with
  | Aes256Gcm data aad =>
      simp only [encryptInput, ctTag] at hne ⊢
      rw [setCtTag, openCiphertext, if_neg (fun hmac => hne hmac.symm)]
  | Hmac256Ctr data aad =>
      simp only [encryptInput, ctTag] at hne ⊢
      rw [setCtTag, openCiphertext, if_neg (fun hmac => hne hmac.symm)]
  | Plain => exact absurd rfl hauth

/-- C5 — Tamper detection: for an object sealed in an authenticated mode,
changing any single byte of the encrypted blob to a different value, or
changing the authentication tag, makes unsealing with a full valid selection
of at least `threshold` shares fail with `AuthenticationFailure`; no
decrypted data is ever returned on a tag mismatch. -/
theorem C5_tamper_detection (pkg : ObjectID) (id : List Byte)
    (services : List ObjectID) (mks : List Zq) (t : ℕ) (input : EncryptionInput)
    (rnd : SealRandomness) (sel : List ℕ) (obj : EncryptedObject) (kb : List Byte)
    (hsmall : services.length < fieldOrder)
    (hauth : input ≠ .Plain)
    (hsel_nd : sel.Nodup)
    (hsel_lt : ∀ i ∈ sel, i < services.length)
    (hsel_card : t ≤ sel.length)
    (hseal : seal_encrypt pkg id services mks t input rnd = .ok (obj, kb)) :
    (∀ (k : ℕ) (b : Byte), k < (ctBlob obj.ciphertext).length →
      b ≠ (ctBlob obj.ciphertext).getD k 0 →
      seal_decrypt
        (withCiphertext obj (setCtBlob obj.ciphertext ((ctBlob obj.ciphertext).set k b)))
        (sel.map (fun i =>
          (services.getD i 0, extract (mks.getD i 0) (create_full_id pkg id))))
        (some mks)
      = .error .AuthenticationFailure)
    ∧ (∀ tg : ℕ, tg ≠ ctTag obj.ciphertext →
      seal_decrypt (withCiphertext obj (setCtTag obj.ciphertext tg))
        (sel.map (fun i =>
          (services.getD i 0, extract (mks.getD i 0) (create_full_id pkg id))))
        (some mks)
      = .error .AuthenticationFailure) := by
  obtain ⟨hnd, _hlen, ht0, _htn, hobj, _hkb⟩ := seal_encrypt_ok hseal
  subst hobj
  constructor
  · intro k b hk hb
    have hblobne : (ctBlob (encryptInput input rnd)).set k b
        ≠ ctBlob (encryptInput input rnd) := by
      intro hset
      have hlen' : k < ((ctBlob (encryptInput input rnd)).set k b).length := by
        rw [List.length_set]
        exact hk
      have h1 : ((ctBlob (encryptInput input rnd)).set k b).getD k 0 = b := by
        rw [List.getD_eq_getElem _ _ hlen', List.getElem_set_self]
      rw [hset] at h1
      exact hb h1.symm
    have hpipe := seal_decrypt_sealed pkg id services mks t rnd sel
      (setCtBlob (encryptInput input rnd) ((ctBlob (encryptInput input rnd)).set k b))
      hnd hsmall ht0 hsel_nd hsel_lt hsel_card
    have hct : withCiphertext
        { package_id := pkg, id := id, services := services, threshold := t,
          encap := rnd.r,
          shares := (List.range services.length).map
            (fun i => polyEval (sharingPoly rnd.key rnd.coeffs t) ((i + 1 : ℕ) : Zq)
              + rnd.r * mks.getD i 0 * hashToScalar (create_full_id pkg id)),
          ciphertext := encryptInput input rnd }
        (setCtBlob (encryptInput input rnd) ((ctBlob (encryptInput input rnd)).set k b))
      = { package_id := pkg, id := id, services := services, threshold := t,
          encap := rnd.r,
          shares := (List.range services.length).map
            (fun i => polyEval (sharingPoly rnd.key rnd.coeffs t) ((i + 1 : ℕ) : Zq)
              + rnd.r * mks.getD i 0 * hashToScalar (create_full_id pkg id)),
          ciphertext := setCtBlob (encryptInput input rnd)
            ((ctBlob (encryptInput input rnd)).set k b) } := rfl
    rw [hct, hpipe]
    exact openCiphertext_blob_tampered input rnd _ hauth hblobne
  · intro tg htg
    have hpipe := seal_decrypt_sealed pkg id services mks t rnd sel
      (setCtTag (encryptInput input rnd) tg)
      hnd hsmall ht0 hsel_nd hsel_lt hsel_card
    have hct : withCiphertext
        { package_id := pkg, id := id, services := services, threshold := t,
          encap := rnd.r,
          shares := (List.range services.length).map
            (fun i => polyEval (sharingPoly rnd.key rnd.coeffs t) ((i + 1 : ℕ) : Zq)
              + rnd.r * mks.getD i 0 * hashToScalar (create_full_id pkg id)),
          ciphertext := encryptInput input rnd }
        (setCtTag (encryptInput input rnd) tg)
      = { package_id := pkg, id := id, services := services, threshold := t,
          encap := rnd.r,
          shares := (List.range services.length).map
            (fun i => polyEval (sharingPoly rnd.key rnd.coeffs t) ((i + 1 : ℕ) : Zq)
              + rnd.r * mks.getD i 0 * hashToScalar (create_full_id pkg id)),
          ciphertext := setCtTag (encryptInput input rnd) tg } := rfl
    rw [hct, hpipe]
    exact openCiphertext_tag_tampered input rnd tg hauth htg

/-- Witness for C5: flipping the first ciphertext byte of a concrete AES-GCM
seal makes a full valid 2-of-3 unseal fail with `AuthenticationFailure`. -/
theorem C5_tamper_detection_witness :
    seal_decrypt
      (withCiphertext
        ⟨0, [], [10, 20, 30], 2, 6, [12, 19, 26],
          encryptInput (.Aes256Gcm [1, 2] none) ⟨5, 6, fun _ => 7, 9⟩⟩
        (setCtBlob
          (EncryptedObject.ciphertext
            ⟨0, [], [10, 20, 30], 2, 6, [12, 19, 26],
              encryptInput (.Aes256Gcm [1, 2] none) ⟨5, 6, fun _ => 7, 9⟩⟩)
          ((ctBlob
            (EncryptedObject.ciphertext
              ⟨0, [], [10, 20, 30], 2, 6, [12, 19, 26],
                encryptInput (.Aes256Gcm [1, 2] none) ⟨5, 6, fun _ => 7, 9⟩⟩)).set 0 99)))
      ([0, 2].map (fun i =>
        (([10, 20, 30] : List ObjectID).getD i 0,
          extract (([3, 4, 5] : List Zq).getD i 0) (create_full_id 0 []))))
      (some [3, 4, 5])
    = .error .AuthenticationFailure :=
  (C5_tamper_detection 0 [] [10, 20, 30] [3, 4, 5] 2 (.Aes256Gcm [1, 2] none)
    ⟨5, 6, fun _ => 7, 9⟩ [0, 2]
    ⟨0, [], [10, 20, 30], 2, 6, [12, 19, 26],
      encryptInput (.Aes256Gcm [1, 2] none) ⟨5, 6, fun _ => 7, 9⟩⟩
    (keyBytes 5)
    (by decide) (by decide) (by decide) (by decide) (by decide) (by decide)).1
    0 99 (by decide) (by decide)

/-- Second component of a seal result, if any. -/
def sealKeyOut : SealResult (EncryptedObject × List Byte) → Option (List Byte)
  | .ok p => some p.2
  | .error _ => none

/-- C7 counterexample — the claim states that in the two payload-carrying
modes the second component of a successful seal is none (no content key is
handed back).  The callers in `src/` pin the interface of `seal_encrypt` to
return a 32-byte key unconditionally (`basic_demo` stores it in AES-GCM and
HMAC-CTR modes, `file_demo` writes it to a key file after an AES-GCM seal),
and here a concrete AES-GCM seal returns exactly the 32-byte seal-time
content key — a present, nonempty value — as its second component. -/
theorem C7_counterexample :
    sealKeyOut (seal_encrypt 0 [] [10, 20] [3, 4] 1
        (EncryptionInput.Aes256Gcm [1, 2] none) ⟨5, 6, fun _ => 7, 9⟩)
      = some (keyBytes 5)
    ∧ keyBytes (5 : Zq) ≠ [] := by
  constructor
  · decide
  · decide

/-- C7 (amended) — for every successful seal call, in every mode (raw-key,
AES-GCM and HMAC-CTR alike), the second component of the returned pair is the
32-byte content key produced at seal time. -/
theorem C7_content_key_returned (pkg : ObjectID) (id : List Byte)
    (services : List ObjectID) (pks : List Zq) (t : ℕ) (input : EncryptionInput)
    (rnd : SealRandomness) (obj : EncryptedObject) (kb : List Byte)
    (h : seal_encrypt pkg id services pks t input rnd = .ok (obj, kb)) :
    kb = keyBytes rnd.key :=
  (seal_encrypt_ok h).2.2.2.2.2

/-- Witness for C7 (amended): the key returned by a concrete raw-key seal is
the 32-byte encoding of the content key. -/
theorem C7_content_key_returned_witness :
    ((5 : Byte) :: List.replicate 31 0) = keyBytes 5 :=
  C7_content_key_returned 0 [] [10, 20] [3, 4] 1 .Plain ⟨5, 6, fun _ => 7, 9⟩
    ⟨0, [], [10, 20], 1, 6, [5, 5], Ciphertext.Plain⟩
    ((5 : Byte) :: List.replicate 31 0) (by decide)

/-- C8 — Package separation: `create_full_id` is a pure function of the
package id and the identity (equal inputs give equal outputs), and two
distinct package ids (within the 32-byte space) give distinct full identities
for the same identity bytes. -/
theorem C8_package_separation (pkg1 pkg2 : ObjectID) (id1 id2 : List Byte) :
    (pkg1 = pkg2 → id1 = id2 → create_full_id pkg1 id1 = create_full_id pkg2 id2)
    ∧ (pkg1 < 256 ^ 32 → pkg2 < 256 ^ 32 → pkg1 ≠ pkg2 →
        create_full_id pkg1 id1 ≠ create_full_id pkg2 id1) := by
  constructor
  · intro h1 h2
    rw [h1, h2]
  · intro hb1 hb2 hne heq
    unfold create_full_id at heq
    have hlen : (natToBytes 32 pkg1).length = (natToBytes 32 pkg2).length := by
      rw [length_natToBytes, length_natToBytes]
    exact hne (natToBytes_inj hb1 hb2 (List.append_inj heq hlen).1)

/-- Witness for C8: package ids 0 and 1 give different full identities. -/
theorem C8_package_separation_witness :
    create_full_id 0 [] ≠ create_full_id 1 [] :=
  (C8_package_separation 0 1 [] []).2 (by norm_num) (by norm_num) (by norm_num)

/-- C9 — Deterministic derivation: `derive_master_key` is deterministic,
distinct indices under one seed give distinct master keys, and the public
share recomputed by `into_key_pair` from a derived key verifies the shares
extracted under that key, for every full identity. -/
theorem C9_deterministic_derivation (seed : Fin 256) (i j : Fin 256)
    (full_id : List Byte) :
    derive_master_key seed i = derive_master_key seed i
    ∧ (i ≠ j → derive_master_key seed i ≠ derive_master_key seed j)
    ∧ verify_user_secret_key
        (extract (into_key_pair (derive_master_key seed i)).1 full_id) full_id
        (into_key_pair (derive_master_key seed i)).2 = .ok () := by
  refine ⟨rfl, ?_, ?_⟩
  · intro hne heq
    unfold derive_master_key at heq
    have h1 : seed.val * 256 + i.val < fieldOrder := by
      have hs := seed.isLt
      have hi := i.isLt
      simp only [fieldOrder]
      omega
    have h2 : seed.val * 256 + j.val < fieldOrder := by
      have hs := seed.isLt
      have hj := j.isLt
      simp only [fieldOrder]
      omega
    have hval := natCast_zq_inj h1 h2 heq
    exact hne (Fin.ext (by omega))
  · have hcond : extract (into_key_pair (derive_master_key seed i)).1 full_id
        = (into_key_pair (derive_master_key seed i)).2 * hashToScalar full_id := rfl
    rw [verify_user_secret_key, if_pos hcond]

/-- Witness for C9: indices 0 and 1 under seed 0 give distinct keys. -/
theorem C9_deterministic_derivation_witness :
    derive_master_key 0 0 ≠ derive_master_key 0 1 :=
  (C9_deterministic_derivation 0 0 1 []).2.1 (by decide)

/-- C10 — EncryptedObject field fidelity: a successful seal exposes exactly
the supplied package id, identity bytes and threshold as fields of the
returned object, unchanged, so the full identity recomputed from the object
alone coincides with the one used at seal time. -/
theorem C10_field_fidelity (pkg : ObjectID) (id : List Byte)
    (services : List ObjectID) (pks : List Zq) (t : ℕ) (input : EncryptionInput)
    (rnd : SealRandomness) (obj : EncryptedObject) (kb : List Byte)
    (h : seal_encrypt pkg id services pks t input rnd = .ok (obj, kb)) :
    obj.package_id = pkg ∧ obj.id = id ∧ obj.threshold = t ∧
    create_full_id obj.package_id obj.id = create_full_id pkg id := by
  obtain ⟨_, _, _, _, hobj, _⟩ := seal_encrypt_ok h
  subst hobj
  exact ⟨rfl, rfl, rfl, rfl⟩

/-- Witness for C10 on a concrete 1-of-2 raw-key seal. -/
theorem C10_field_fidelity_witness :
    (⟨0, [], [10, 20], 1, 6, [5, 5], Ciphertext.Plain⟩ :
        EncryptedObject).package_id = 0
    ∧ (⟨0, [], [10, 20], 1, 6, [5, 5], Ciphertext.Plain⟩ :
        EncryptedObject).id = []
    ∧ (⟨0, [], [10, 20], 1, 6, [5, 5], Ciphertext.Plain⟩ :
        EncryptedObject).threshold = 1
    ∧ create_full_id
        (⟨0, [], [10, 20], 1, 6, [5, 5], Ciphertext.Plain⟩ :
          EncryptedObject).package_id
        (⟨0, [], [10, 20], 1, 6, [5, 5], Ciphertext.Plain⟩ :
          EncryptedObject).id
      = create_full_id 0 [] :=
  C10_field_fidelity 0 [] [10, 20] [3, 4] 1 .Plain ⟨5, 6, fun _ => 7, 9⟩
    ⟨0, [], [10, 20], 1, 6, [5, 5], Ciphertext.Plain⟩ (keyBytes 5) (by decide)

end SealToolkit

